import Mathlib

/-!
Verification of the Cloudflare GraphQL firewall-analytics PoC
(`receiver/cloudflarereceiver/poc`): a shallow embedding of
`graphql_client.go` (the query executor) and the `main.go` summarizer
(aggregation by action/source/country, top-10 country sort), together with a
spec-modelled time-window tracker, and theorems about them.
-/

namespace CloudflarePoc

/-! ## Signed 64-bit integer model

Go's `int64` arithmetic wraps on overflow.  We model `int64` values as `Int`
and make the wrap explicit: `int64wrap x` reduces `x` into
`[-2^63, 2^63)`, and `i64add` is Go's `+` on `int64`. -/

/-- Reduce an integer into the signed 64-bit range `[-2^63, 2^63)`,
exactly as Go `int64` overflow does. -/
def int64wrap (x : Int) : Int :=
  (x + 2 ^ 63) % 2 ^ 64 - 2 ^ 63

/-- Go `int64` addition: add, then wrap. -/
def i64add (a b : Int) : Int :=
  int64wrap (a + b)

/-! ## Aggregation maps (from `main.go`)

`main.go` builds `map[string]int64` maps with `m[k] += event.Count` while
ranging over the event groups.  The map is embedded as an association list
(`bumpKey` is one `m[k] += c` step; a missing key reads as Go's zero value). -/

/-- One `m[k] += c` step on a Go `map[string]int64`: a missing key reads as
`0`, and the addition is wrapping `int64` addition. -/
def bumpKey (m : List (String × Int)) (k : String) (c : Int) :
    List (String × Int) :=
  match m with
  | [] => [(k, i64add 0 c)]
  | (k', v) :: rest =>
      if k' = k then (k', i64add v c) :: rest else (k', v) :: bumpKey rest k c

/-- Map lookup with Go's zero value for a missing key. -/
def lookupD (m : List (String × Int)) (k : String) : Int :=
  match m with
  | [] => 0
  | (k', v) :: rest => if k' = k then v else lookupD rest k

/-- Sum of all values stored in the map. -/
def sumValues (m : List (String × Int)) : Int :=
  (m.map Prod.snd).sum

/-- A `dimensions` object of one `firewallEventsAdaptiveGroups` row
(from `FirewallEventsResponse` in `graphql_client.go`). -/
structure Dimensions where
  action : String
  source : String
  clientCountryName : String
deriving DecidableEq, Repr

/-- One `firewallEventsAdaptiveGroups` row: a count and its dimensions
(from `FirewallEventsResponse` in `graphql_client.go`). -/
structure FirewallEventGroup where
  count : Int
  dimensions : Dimensions
deriving DecidableEq, Repr

/-- The aggregation loop of `main.go`:
`for _, event := range events { m[proj(event)] += event.Count }`,
with `proj` one of the three dimension projections used there. -/
def aggregateBy (proj : FirewallEventGroup → String)
    (events : List FirewallEventGroup) : List (String × Int) :=
  events.foldl (fun m e => bumpKey m (proj e) e.count) []

/-! ## GraphQL client (from `graphql_client.go`)

The HTTP transport and JSON decoding are external effects; they enter the
embedding as explicit inputs.  `transport n` is the outcome the HTTP client
would return for the `n`-th `Do` call of one `Query` invocation (the Go code
performs exactly one), and the two `decode…` parameters stand for
`json.Unmarshal` into the respective Go types. -/

/-- Raw response bytes (opaque to the model). -/
abbrev Bytes := String

/-- Outcome of one `httpClient.Do` call plus the subsequent `io.ReadAll`:
either the transport fails before a response is obtained, or a response
arrives with a status code and a body read that may itself fail. -/
inductive HTTPResult where
  | transportFailure (msg : String)
  | response (status : Nat) (readBody : Option Bytes)
deriving DecidableEq, Repr

/-- `GraphQLError` from `graphql_client.go`. -/
structure GraphQLError where
  message : String
  path : List String
deriving DecidableEq, Repr

/-- `GraphQLResponse` from `graphql_client.go`: raw `data` bytes plus the
payload-level error list. -/
structure GraphQLResponse where
  data : Bytes
  errors : List GraphQLError
deriving DecidableEq, Repr

/-- The outcome classification inside `Query` (`graphql_client.go`
lines 84–114), in source order: `Do` error, `ReadAll` error, non-200 status,
`json.Unmarshal` failure, non-empty payload `errors` list, success. -/
def classifyResponse (res : HTTPResult)
    (decodeResp : Bytes → Option GraphQLResponse) :
    Except String GraphQLResponse :=
  match res with
  | .transportFailure m => .error ("execute request: " ++ m)
  | .response status readBody =>
      match readBody with
      | none => .error ("read response")
      | some b =>
          if status ≠ 200 then
            .error ("unexpected status code " ++ toString status)
          else
            match decodeResp b with
            | none => .error ("decode response")
            | some r =>
                if r.errors.isEmpty then .ok r
                else .error ("graphql errors")

/-- `Query` from `graphql_client.go`: it performs exactly one HTTP request
(the first and only `Do` call) and classifies its outcome.  There is no
retry loop in the source. -/
def Query (transport : Nat → HTTPResult)
    (decodeResp : Bytes → Option GraphQLResponse) :
    Except String GraphQLResponse :=
  classifyResponse (transport 0) decodeResp

/-- One zone entry of `FirewallEventsResponse` (`graphql_client.go`). -/
structure ZoneGroups where
  firewallEventsAdaptiveGroups : List FirewallEventGroup
deriving DecidableEq, Repr

/-- The `viewer` object of `FirewallEventsResponse` (`graphql_client.go`). -/
structure Viewer where
  zones : List ZoneGroups
deriving DecidableEq, Repr

/-- `FirewallEventsResponse` from `graphql_client.go`. -/
structure FirewallEventsResponse where
  viewer : Viewer
deriving DecidableEq, Repr

/-- `GetFirewallEvents` from `graphql_client.go`: run `Query` once, then
unmarshal `resp.Data` into `FirewallEventsResponse`; the decoded value is
returned unchanged. -/
def GetFirewallEvents (transport : Nat → HTTPResult)
    (decodeResp : Bytes → Option GraphQLResponse)
    (decodeFE : Bytes → Option FirewallEventsResponse) :
    Except String FirewallEventsResponse :=
  match Query transport decodeResp with
  | .error e => .error e
  | .ok resp =>
      match decodeFE resp.data with
      | none => .error ("unmarshal firewall events")
      | some r => .ok r

/-- The row cap hard-coded in the query text of `GetFirewallEvents`
(`limit: 100`). -/
def firewallEventsQueryLimit : Nat := 100

/-- Membership of an event timestamp in the queried range, as written in the
query text of `GetFirewallEvents`:
`filter: { datetime_geq: $since, datetime_leq: $until }` — that is,
`since ≤ t` AND `t ≤ until` (both bounds inclusive). -/
def firewallEventsFilter (since until_ t : Int) : Bool :=
  (since ≤ t) && (t ≤ until_)

/-! ## The `main.go` summarizer

After a successful fetch, `main` checks `len(result.Viewer.Zones) == 0`
(printing "No zones found in response" and returning normally), otherwise
takes `result.Viewer.Zones[0]` and builds three `map[string]int64` summaries
plus a top-10 country list obtained by a nested-loop swap sort on count
descending. -/

/-- One element swap `a[i], a[j] = a[j], a[i]` on the country slice
(both indices in range whenever the loops of `main.go` reach it). -/
def swapIdx (l : List (String × Int)) (i j : Nat) : List (String × Int) :=
  (l.set i (l.getD j ("", 0))).set j (l.getD i ("", 0))

/-- One inner-loop step of the sort in `main.go`:
`if countries[j].count > countries[i].count { swap }`. -/
def passStep (l : List (String × Int)) (i j : Nat) : List (String × Int) :=
  if (l.getD j ("", 0)).2 > (l.getD i ("", 0)).2 then swapIdx l i j else l

/-- The nested-loop sort of `main.go`:
`for i := 0; i < n; i++ { for j := i+1; j < n; j++ { if a[j].count > a[i].count { swap } } }`.
It orders by count descending and has no tie-break. -/
def sortCountries (l : List (String × Int)) : List (String × Int) :=
  (List.range l.length).foldl
    (fun acc i =>
      ((List.range l.length).drop (i + 1)).foldl
        (fun acc2 j => passStep acc2 i j) acc)
    l

/-- The three summary maps `main.go` builds from the selected zone's event
groups. -/
structure Summaries where
  actionCounts : List (String × Int)
  sourceCounts : List (String × Int)
  countryCounts : List (String × Int)
deriving DecidableEq, Repr

/-- Build the three summaries exactly as `main.go` does. -/
def summarize (events : List FirewallEventGroup) : Summaries :=
  { actionCounts := aggregateBy (fun e => e.dimensions.action) events
    sourceCounts := aggregateBy (fun e => e.dimensions.source) events
    countryCounts := aggregateBy (fun e => e.dimensions.clientCountryName) events }

/-- The printed top-10 list: sort the country map entries, then take the
first `min 10 n` entries (`max := len; if max > 10 { max = 10 }`). -/
def topCountries (events : List FirewallEventGroup) : List (String × Int) :=
  (sortCountries
    (aggregateBy (fun e => e.dimensions.clientCountryName) events)).take 10

/-- Observable outcome of `main` after the fetch: the error path
(`os.Exit(1)`), the normal "No zones found in response" return, or the
summaries report computed from the first zone entry. -/
inductive MainOutcome where
  | fetchError (msg : String)
  | noZones
  | report (s : Summaries) (top : List (String × Int))
deriving DecidableEq, Repr

/-- The post-fetch control flow of `main.go`. -/
def runMain (fetch : Except String FirewallEventsResponse) : MainOutcome :=
  match fetch with
  | .error e => .fetchError e
  | .ok result =>
      match result.viewer.zones with
      | [] => .noZones
      | zone :: _ =>
          .report (summarize zone.firewallEventsAdaptiveGroups)
            (topCountries zone.firewallEventsAdaptiveGroups)

/-! ## Spec-modelled time-window tracker

No TimeWindowTracker / checkpoint code exists under `src/` (the PoC fixes
`since = now - 1h`, `until = now` once per process run); the definitions in
this section are modelled from the spec's §4.2 contract so its checkpoint
claims can be settled. -/

/-- Modelled from the spec: a half-open query window `[since, until)` for
one cycle of one zone (the TimeWindowTracker data model; absent from
`src/`). -/
structure TimeWindow where
  since : Int
  until_ : Int
deriving DecidableEq, Repr

/-- Membership of an instant in a half-open window `[since, until)`. -/
def TimeWindow.containsT (w : TimeWindow) (t : Int) : Bool :=
  (w.since ≤ t) && (t < w.until_)

/-- Modelled from the spec: `nextWindow(zone, now)` of the TimeWindowTracker
(absent from `src/`).  First call: `[now - lookback, now)`; afterwards
`[checkpoint, now)`; `none` (Skip) when `now ≤ checkpoint`. -/
def nextWindow (checkpoint : Option Int) (lookback now : Int) :
    Option TimeWindow :=
  match checkpoint with
  | none => some ⟨now - lookback, now⟩
  | some c => if now ≤ c then none else some ⟨c, now⟩

/-- Modelled from the spec: one zone of one scrape cycle (absent from
`src/`).  The window is issued from the current checkpoint; the checkpoint is
advanced to the window's `until` only when the query/aggregate/emit pipeline
for that window succeeded.  Returns the new checkpoint and the issued
window, if any. -/
def stepCheckpoint (cp : Option Int) (lookback now : Int) (success : Bool) :
    Option Int × Option TimeWindow :=
  match nextWindow cp lookback now with
  | none => (cp, none)
  | some w => (if success then some w.until_ else cp, some w)

/-- Modelled from the spec: run a sequence of scrape cycles for one zone,
each given by its clock reading and whether its pipeline succeeded; collect
the windows of the successful cycles.  Returns the final checkpoint and the
successfully scraped windows in order. -/
def runCycles (lookback : Int) :
    Option Int → List (Int × Bool) → Option Int × List TimeWindow
  | cp, [] => (cp, [])
  | cp, (now, success) :: rest =>
      let step := stepCheckpoint cp lookback now success
      let tail := runCycles lookback step.1 rest
      (tail.1,
        (match step.2, success with
          | some w, true => [w]
          | _, _ => []) ++ tail.2)

/-- The inner loop of the sort in `main.go` for a fixed outer index `i`:
fold `passStep` over the inner index list. -/
def innerFold (i : Nat) (js : List Nat) (l : List (String × Int)) :
    List (String × Int) :=
  js.foldl (fun acc j => passStep acc i j) l

/-- The outer-loop body of the sort in `main.go`: one full inner pass for
outer index `i` over indices `i+1 … n-1`. -/
def outerStep (n : Nat) (acc : List (String × Int)) (i : Nat) :
    List (String × Int) :=
  innerFold i ((List.range n).drop (i + 1)) acc

/-- The sorted-prefix invariant of the selection-style sort: every position
before `i` dominates (by count) every position at or after it. -/
def prefixDom (n i : Nat) (r : List (String × Int)) : Prop :=
  ∀ p q, p < i → p ≤ q → q < n → (r.getD q ("", 0)).2 ≤ (r.getD p ("", 0)).2

/-- The windows an uninterrupted run issues: one window per clock reading,
each starting where the previous one ended. -/
def windowsFrom (c : Int) : List Int → List TimeWindow
  | [] => []
  | n :: rest => ⟨c, n⟩ :: windowsFrom n rest

/-- A concrete decoded firewall response holding exactly 100 rows, the
hard-coded query cap. -/
def exResp100 : FirewallEventsResponse :=
  ⟨⟨[⟨List.replicate 100 ⟨1, ⟨"block", "waf", "US"⟩⟩⟩]⟩⟩

/-- A transport oracle answering every attempt with a clean 200 response. -/
def exTransport : Nat → HTTPResult :=
  fun _ => .response 200 (some ("body"))

/-- A decoder for the envelope of the scenario above. -/
def exDecodeResp : Bytes → Option GraphQLResponse :=
  fun b => if b = "body" then some ⟨"data", []⟩ else none

/-- A decoder yielding the 100-row payload of the scenario above. -/
def exDecodeFE : Bytes → Option FirewallEventsResponse :=
  fun b => if b = "data" then some exResp100 else none

theorem int64wrap_emod (x : Int) : int64wrap x % 2 ^ 64 = x % 2 ^ 64 := by
  unfold int64wrap
  omega

theorem int64wrap_add_left (x y : Int) :
    int64wrap (int64wrap x + y) = int64wrap (x + y) := by
  unfold int64wrap
  omega

theorem int64wrap_eq_of_mem (x : Int) (h1 : -(2 ^ 63) ≤ x) (h2 : x < 2 ^ 63) :
    int64wrap x = x := by
  unfold int64wrap
  omega

theorem sumValues_bumpKey (m : List (String × Int)) (k : String) (c : Int) :
    sumValues (bumpKey m k c) % 2 ^ 64 = (sumValues m + c) % 2 ^ 64 := by
  induction m with
  | nil =>
      have h := int64wrap_emod c
      simp only [bumpKey, sumValues, i64add, List.map_cons, List.map_nil,
        List.sum_cons, List.sum_nil, Int.add_zero, Int.zero_add] at *
      omega
  | cons hd tl ih =>
      obtain ⟨k', v⟩ := hd
      by_cases hk : k' = k
      · subst hk
        have hb : bumpKey ((k', v) :: tl) k' c = (k', i64add v c) :: tl := by
          simp [bumpKey]
        rw [hb]
        have h := int64wrap_emod (v + c)
        simp only [sumValues, i64add, List.map_cons, List.sum_cons] at *
        omega
      · simp only [bumpKey, if_neg hk, sumValues, List.map_cons,
          List.sum_cons] at *
        omega

theorem sumValues_foldl_bump (proj : FirewallEventGroup → String) :
    ∀ (l : List FirewallEventGroup) (m : List (String × Int)),
      sumValues (l.foldl (fun m e => bumpKey m (proj e) e.count) m) % 2 ^ 64 =
        (sumValues m + (l.map (fun e => e.count)).sum) % 2 ^ 64 := by
  intro l
  induction l with
  | nil => intro m; simp
  | cons e tl ih =>
      intro m
      have h1 := ih (bumpKey m (proj e) e.count)
      have h2 := sumValues_bumpKey m (proj e) e.count
      simp only [List.foldl_cons, List.map_cons, List.sum_cons] at *
      omega

theorem lookupD_bumpKey_eq (m : List (String × Int)) (k : String) (c : Int) :
    lookupD (bumpKey m k c) k = i64add (lookupD m k) c := by
  induction m with
  | nil => simp [bumpKey, lookupD]
  | cons hd tl ih =>
      obtain ⟨k', v⟩ := hd
      by_cases hk : k' = k
      · simp [bumpKey, lookupD, hk]
      · simp [bumpKey, lookupD, hk, ih]

theorem lookupD_bumpKey_ne (m : List (String × Int)) (k k' : String) (c : Int)
    (h : k' ≠ k) : lookupD (bumpKey m k c) k' = lookupD m k' := by
  induction m with
  | nil => simp [bumpKey, lookupD, h.symm]
  | cons hd tl ih =>
      obtain ⟨k0, v⟩ := hd
      by_cases hk : k0 = k
      · subst hk
        simp [bumpKey, lookupD, h.symm]
      · simp only [bumpKey, if_neg hk, lookupD]
        by_cases hk' : k0 = k'
        · simp [hk']
        · simp [hk', ih]

/-- The value accumulated for key `k` is the `int64`-wrapped sum of the
counts of exactly the events that project to `k`. -/
theorem lookupD_aggregateBy (proj : FirewallEventGroup → String)
    (l : List FirewallEventGroup) (k : String) :
    lookupD (aggregateBy proj l) k =
      int64wrap (((l.filter (fun e => proj e = k)).map
        (fun e => e.count)).sum) := by
  induction l using List.reverseRecOn with
  | nil => simp [aggregateBy, lookupD, int64wrap]
  | append_singleton tl e ih =>
      unfold aggregateBy at *
      rw [List.foldl_append, List.foldl_cons, List.foldl_nil]
      by_cases hk : proj e = k
      · rw [hk, lookupD_bumpKey_eq, ih]
        simp only [i64add, int64wrap_add_left]
        rw [List.filter_append, List.map_append, List.sum_append]
        simp [hk]
      · rw [lookupD_bumpKey_ne _ _ _ _ (Ne.symm hk), ih]
        rw [List.filter_append, List.map_append, List.sum_append]
        simp [hk]

theorem mem_keys_bumpKey (m : List (String × Int)) (k k' : String) (c : Int) :
    k' ∈ (bumpKey m k c).map Prod.fst ↔ k' = k ∨ k' ∈ m.map Prod.fst := by
  induction m with
  | nil => simp [bumpKey]
  | cons hd tl ih =>
      obtain ⟨k0, v⟩ := hd
      by_cases hk : k0 = k
      · subst hk
        have hb : bumpKey ((k0, v) :: tl) k0 c = (k0, i64add v c) :: tl := by
          simp [bumpKey]
        rw [hb]
        simp only [List.map_cons, List.mem_cons]
        tauto
      · simp only [bumpKey, if_neg hk, List.map_cons, List.mem_cons, ih]
        tauto

theorem mem_keys_foldl_bump (proj : FirewallEventGroup → String) :
    ∀ (l : List FirewallEventGroup) (m : List (String × Int)) (k : String),
      k ∈ ((l.foldl (fun m e => bumpKey m (proj e) e.count) m).map Prod.fst) ↔
        k ∈ m.map Prod.fst ∨ k ∈ l.map proj := by
  intro l
  induction l with
  | nil => intro m k; simp
  | cons e tl ih =>
      intro m k
      simp only [List.foldl_cons, List.map_cons, List.mem_cons]
      rw [ih, mem_keys_bumpKey]
      tauto

/-! ## Facts about the sort of `main.go` -/

theorem sortCountries_eq_foldl (l : List (String × Int)) :
    sortCountries l = (List.range l.length).foldl (outerStep l.length) l :=
  rfl

theorem mem_drop_range (n m k : Nat) :
    k ∈ (List.range n).drop m ↔ m ≤ k ∧ k < n := by
  by_cases h : m ≤ n
  · have hsplit : List.range' 0 m ++ List.range' m (n - m) = List.range n := by
      rw [List.range_eq_range']
      have happ := List.range'_append_1 0 m (n - m)
      rw [Nat.zero_add] at happ
      rw [happ]
      congr 1
      omega
    have hdrop : (List.range' 0 m ++ List.range' m (n - m)).drop m =
        List.range' m (n - m) :=
      List.drop_left' (by simp)
    rw [← hsplit, hdrop, List.mem_range'_1]
    omega
  · have hnil : (List.range n).drop m = [] := by
      apply List.drop_eq_nil_of_le
      rw [List.length_range]
      omega
    rw [hnil]
    simp only [List.not_mem_nil, false_iff]
    omega

theorem length_passStep (l : List (String × Int)) (i j : Nat) :
    (passStep l i j).length = l.length := by
  unfold passStep swapIdx
  split <;> simp

theorem getD_set_ne (l : List (String × Int)) (m q : Nat) (v : String × Int)
    (h : q ≠ m) : (l.set m v).getD q ("", 0) = l.getD q ("", 0) := by
  rw [List.getD_eq_getD_get?, List.getD_eq_getD_get?, List.get?_eq_getElem?,
    List.get?_eq_getElem?, List.getElem?_set_ne (Ne.symm h)]

theorem getD_set_self (l : List (String × Int)) (m : Nat) (v : String × Int)
    (h : m < l.length) : (l.set m v).getD m ("", 0) = v := by
  rw [List.getD_eq_getD_get?, List.get?_eq_getElem?, List.getElem?_set_self h]
  rfl

theorem getD_swapIdx_ne (l : List (String × Int)) (i j q : Nat)
    (hqi : q ≠ i) (hqj : q ≠ j) :
    (swapIdx l i j).getD q ("", 0) = l.getD q ("", 0) := by
  unfold swapIdx
  rw [getD_set_ne _ _ _ _ hqj, getD_set_ne _ _ _ _ hqi]

theorem getD_swapIdx_fst (l : List (String × Int)) (i j : Nat)
    (hi : i < l.length) (hij : i ≠ j) :
    (swapIdx l i j).getD i ("", 0) = l.getD j ("", 0) := by
  unfold swapIdx
  rw [getD_set_ne _ _ _ _ hij, getD_set_self _ _ _ hi]

theorem getD_swapIdx_snd (l : List (String × Int)) (i j : Nat)
    (hj : j < l.length) :
    (swapIdx l i j).getD j ("", 0) = l.getD i ("", 0) := by
  unfold swapIdx
  rw [getD_set_self]
  rw [List.length_set]
  exact hj

theorem getD_drop (l : List (String × Int)) (i k : Nat) :
    (l.drop i).getD k ("", 0) = l.getD (i + k) ("", 0) := by
  rw [List.getD_eq_getD_get?, List.getD_eq_getD_get?, List.get?_eq_getElem?,
    List.get?_eq_getElem?, List.getElem?_drop]

theorem getD_mem_of_lt (l : List (String × Int)) (k : Nat) (h : k < l.length) :
    l.getD k ("", 0) ∈ l := by
  rw [List.getD_eq_getElem l _ h]
  exact List.getElem_mem h

theorem getD_set_cons_perm (d : String × Int) :
    ∀ (xs : List (String × Int)) (j : Nat) (v : String × Int),
      j < xs.length → (xs.getD j d :: xs.set j v).Perm (v :: xs) := by
  intro xs
  induction xs with
  | nil => intro j v h; simp at h
  | cons x t ih =>
      intro j v h
      cases j with
      | zero =>
          simp only [List.getD_cons_zero, List.set_cons_zero]
          exact List.Perm.swap v x t
      | succ j' =>
          simp only [List.getD_cons_succ, List.set_cons_succ]
          have p1 : List.Perm (t.getD j' d :: x :: t.set j' v)
              (x :: t.getD j' d :: t.set j' v) := List.Perm.swap x _ _
          have p2 : List.Perm (x :: t.getD j' d :: t.set j' v) (x :: v :: t) :=
            (ih j' v (by simpa using h)).cons x
          have p3 : List.Perm (x :: v :: t) (v :: x :: t) := List.Perm.swap v x t
          exact (p1.trans p2).trans p3

theorem swapIdx_perm : ∀ (i : Nat) (l : List (String × Int)) (j : Nat),
    i < j → j < l.length → (swapIdx l i j).Perm l := by
  intro i
  induction i with
  | zero =>
      intro l j hij hj
      cases l with
      | nil => simp at hj
      | cons x t =>
          cases j with
          | zero => omega
          | succ j' =>
              have he : swapIdx (x :: t) 0 (j' + 1) =
                  t.getD j' ("", 0) :: t.set j' x := by
                simp [swapIdx]
              rw [he]
              exact getD_set_cons_perm ("", 0) t j' x (by simpa using hj)
  | succ i' ih =>
      intro l j hij hj
      cases l with
      | nil => simp at hj
      | cons x t =>
          cases j with
          | zero => omega
          | succ j'' =>
              have he : swapIdx (x :: t) (i' + 1) (j'' + 1) =
                  x :: swapIdx t i' j'' := by
                simp [swapIdx]
              rw [he]
              exact (ih t j'' (by omega) (by simpa using hj)).cons x

theorem passStep_perm (l : List (String × Int)) (i j : Nat)
    (hij : i < j) (hj : j < l.length) : (passStep l i j).Perm l := by
  unfold passStep
  split
  · exact swapIdx_perm i l j hij hj
  · exact List.Perm.refl l

theorem drop_swapIdx_perm (l : List (String × Int)) (i j : Nat)
    (hij : i < j) (hj : j < l.length) :
    ((swapIdx l i j).drop i).Perm (l.drop i) := by
  unfold swapIdx
  rw [List.drop_set, if_neg (by omega), List.drop_set, if_neg (by omega),
    Nat.sub_self]
  have h1 : l.getD j ("", 0) = (l.drop i).getD (j - i) ("", 0) := by
    rw [getD_drop]
    congr 1
    omega
  have h2 : l.getD i ("", 0) = (l.drop i).getD 0 ("", 0) := by
    rw [getD_drop, Nat.add_zero]
  rw [h1, h2]
  have hlen : j - i < (l.drop i).length := by
    rw [List.length_drop]
    omega
  exact swapIdx_perm 0 (l.drop i) (j - i) (by omega) hlen

theorem drop_passStep_perm (l : List (String × Int)) (i j : Nat)
    (hij : i < j) (hj : j < l.length) :
    ((passStep l i j).drop i).Perm (l.drop i) := by
  unfold passStep
  split
  · exact drop_swapIdx_perm l i j hij hj
  · exact List.Perm.refl _

theorem length_innerFold (i : Nat) : ∀ (js : List Nat)
    (l : List (String × Int)), (innerFold i js l).length = l.length := by
  intro js
  induction js with
  | nil => intro l; rfl
  | cons j rest ih =>
      intro l
      show (innerFold i rest (passStep l i j)).length = l.length
      rw [ih, length_passStep]

theorem innerFold_perm (i : Nat) : ∀ (js : List Nat)
    (l : List (String × Int)), (∀ j ∈ js, i < j ∧ j < l.length) →
    (innerFold i js l).Perm l := by
  intro js
  induction js with
  | nil => intro l _; exact List.Perm.refl l
  | cons j rest ih =>
      intro l h
      have hj := h j (List.mem_cons_self j rest)
      show (innerFold i rest (passStep l i j)).Perm l
      have hrest : ∀ j' ∈ rest, i < j' ∧ j' < (passStep l i j).length := by
        intro j' hj'
        rw [length_passStep]
        exact h j' (List.mem_cons_of_mem _ hj')
      exact (ih (passStep l i j) hrest).trans (passStep_perm l i j hj.1 hj.2)

theorem innerFold_drop_perm (i : Nat) : ∀ (js : List Nat)
    (l : List (String × Int)), (∀ j ∈ js, i < j ∧ j < l.length) →
    ((innerFold i js l).drop i).Perm (l.drop i) := by
  intro js
  induction js with
  | nil => intro l _; exact List.Perm.refl _
  | cons j rest ih =>
      intro l h
      have hj := h j (List.mem_cons_self j rest)
      show ((innerFold i rest (passStep l i j)).drop i).Perm (l.drop i)
      have hrest : ∀ j' ∈ rest, i < j' ∧ j' < (passStep l i j).length := by
        intro j' hj'
        rw [length_passStep]
        exact h j' (List.mem_cons_of_mem _ hj')
      exact (ih (passStep l i j) hrest).trans
        (drop_passStep_perm l i j hj.1 hj.2)

theorem innerFold_getD_untouched (i : Nat) : ∀ (js : List Nat)
    (l : List (String × Int)) (q : Nat), q ≠ i → q ∉ js →
    (innerFold i js l).getD q ("", 0) = l.getD q ("", 0) := by
  intro js
  induction js with
  | nil => intro l q _ _; rfl
  | cons j rest ih =>
      intro l q hqi hqjs
      have hqj : q ≠ j := fun hh => hqjs (hh ▸ List.mem_cons_self j rest)
      show (innerFold i rest (passStep l i j)).getD q ("", 0) =
        l.getD q ("", 0)
      rw [ih (passStep l i j) q hqi (fun hh => hqjs (List.mem_cons_of_mem _ hh))]
      unfold passStep
      split
      · exact getD_swapIdx_ne l i j q hqi hqj
      · rfl

theorem innerFold_max (i : Nat) : ∀ (js : List Nat)
    (l : List (String × Int)),
    (∀ j ∈ js, i < j ∧ j < l.length) → js.Pairwise (· < ·) → i < l.length →
    (l.getD i ("", 0)).2 ≤ ((innerFold i js l).getD i ("", 0)).2 ∧
    ∀ j ∈ js, ((innerFold i js l).getD j ("", 0)).2 ≤
      ((innerFold i js l).getD i ("", 0)).2 := by
  intro js
  induction js with
  | nil =>
      intro l _ _ _
      exact ⟨le_refl _, fun j hj => absurd hj (List.not_mem_nil j)⟩
  | cons j rest ih =>
      intro l hb hp hi
      obtain ⟨hij, hjl⟩ := hb j (List.mem_cons_self j rest)
      have hb' : ∀ j' ∈ rest, i < j' ∧ j' < (passStep l i j).length := by
        intro j' hj'
        rw [length_passStep]
        exact hb j' (List.mem_cons_of_mem _ hj')
      have hp' : rest.Pairwise (· < ·) := (List.pairwise_cons.mp hp).2
      have hj_not : j ∉ rest := by
        intro hmem
        have := (List.pairwise_cons.mp hp).1 j hmem
        omega
      have hi' : i < (passStep l i j).length := by
        rw [length_passStep]
        exact hi
      obtain ⟨ihmono, ihmax⟩ := ih (passStep l i j) hb' hp' hi'
      have hstep_i : (l.getD i ("", 0)).2 ≤ ((passStep l i j).getD i ("", 0)).2 := by
        unfold passStep
        split_ifs with hcond
        · rw [getD_swapIdx_fst l i j hi (by omega)]
          omega
        · exact le_refl _
      have hstep_j : ((passStep l i j).getD j ("", 0)).2 ≤
          ((passStep l i j).getD i ("", 0)).2 := by
        unfold passStep
        split_ifs with hcond
        · rw [getD_swapIdx_fst l i j hi (by omega),
            getD_swapIdx_snd l i j hjl]
          omega
        · omega
      refine ⟨le_trans hstep_i ihmono, ?_⟩
      intro j' hj'
      rcases List.mem_cons.mp hj' with rfl | hmem
      · have huntouched : (innerFold i rest (passStep l i j')).getD j' ("", 0) =
            (passStep l i j').getD j' ("", 0) :=
          innerFold_getD_untouched i rest _ j' (by omega) hj_not
        show ((innerFold i rest (passStep l i j')).getD j' ("", 0)).2 ≤
          ((innerFold i rest (passStep l i j')).getD i ("", 0)).2
        rw [huntouched]
        exact le_trans hstep_j ihmono
      · exact ihmax j' hmem

theorem outerStep_preserves (l r : List (String × Int)) (i : Nat)
    (hlen : r.length = l.length) (hi : i < l.length)
    (hdom : prefixDom l.length i r) :
    (outerStep l.length r i).length = l.length ∧
    (outerStep l.length r i).Perm r ∧
    prefixDom l.length (i + 1) (outerStep l.length r i) := by
  have hjs : ∀ j ∈ (List.range l.length).drop (i + 1),
      i < j ∧ j < r.length := by
    intro j hj
    rw [mem_drop_range] at hj
    exact ⟨by omega, by omega⟩
  have hjs_pair : ((List.range l.length).drop (i + 1)).Pairwise (· < ·) :=
    List.Pairwise.sublist (List.drop_sublist _ _)
      (List.pairwise_lt_range l.length)
  have hir : i < r.length := by omega
  obtain ⟨hmono, hmax⟩ :=
    innerFold_max i ((List.range l.length).drop (i + 1)) r hjs hjs_pair hir
  have hdropperm :=
    innerFold_drop_perm i ((List.range l.length).drop (i + 1)) r hjs
  have hRlen : (outerStep l.length r i).length = l.length := by
    show (innerFold i _ _).length = _
    rw [length_innerFold, hlen]
  refine ⟨hRlen, innerFold_perm i _ _ hjs, ?_⟩
  intro p q hp hpq hq
  by_cases hpi : p = i
  · subst hpi
    by_cases hqp : q = p
    · subst hqp
      exact le_refl _
    · exact hmax q (by rw [mem_drop_range]; omega)
  · have hpi' : p < i := by omega
    have hpd : (outerStep l.length r i).getD p ("", 0) = r.getD p ("", 0) :=
      innerFold_getD_untouched i _ r p (by omega)
        (fun hmem => by rw [mem_drop_range] at hmem; omega)
    by_cases hqi : q < i
    · have hqd : (outerStep l.length r i).getD q ("", 0) = r.getD q ("", 0) :=
        innerFold_getD_untouched i _ r q (by omega)
          (fun hmem => by rw [mem_drop_range] at hmem; omega)
      rw [hpd, hqd]
      exact hdom p q hpi' hpq hq
    · have hqv : (outerStep l.length r i).getD q ("", 0) ∈
          (outerStep l.length r i).drop i := by
        have heq : ((outerStep l.length r i).drop i).getD (q - i) ("", 0) =
            (outerStep l.length r i).getD q ("", 0) := by
          rw [getD_drop]
          congr 1
          omega
        rw [← heq]
        apply getD_mem_of_lt
        rw [List.length_drop, hRlen]
        omega
      have hqv2 : (outerStep l.length r i).getD q ("", 0) ∈ r.drop i :=
        hdropperm.mem_iff.mp hqv
      obtain ⟨k, hk, hkeq⟩ := List.mem_iff_getElem.mp hqv2
      have hkval : r.getD (i + k) ("", 0) =
          (outerStep l.length r i).getD q ("", 0) := by
        rw [← getD_drop, List.getD_eq_getElem _ _ hk, hkeq]
      have hkn : i + k < l.length := by
        rw [List.length_drop, hlen] at hk
        omega
      rw [hpd, ← hkval]
      exact hdom p (i + k) hpi' (by omega) hkn

theorem outer_fold_invariant (l : List (String × Int)) : ∀ i, i ≤ l.length →
    ((List.range i).foldl (outerStep l.length) l).length = l.length ∧
    ((List.range i).foldl (outerStep l.length) l).Perm l ∧
    prefixDom l.length i ((List.range i).foldl (outerStep l.length) l) := by
  intro i
  induction i with
  | zero =>
      intro _
      exact ⟨rfl, List.Perm.refl l,
        fun p _ hp _ _ => absurd hp (Nat.not_lt_zero p)⟩
  | succ i ih =>
      intro hle
      obtain ⟨hlen, hperm, hdom⟩ := ih (by omega)
      rw [List.range_succ, List.foldl_append, List.foldl_cons, List.foldl_nil]
      obtain ⟨h1, h2, h3⟩ :=
        outerStep_preserves l ((List.range i).foldl (outerStep l.length) l) i
          hlen (by omega) hdom
      exact ⟨h1, h2.trans hperm, h3⟩

/-! ## Facts about the spec-modelled tracker runs -/

theorem containsT_iff (w : TimeWindow) (t : Int) :
    w.containsT t = true ↔ w.since ≤ t ∧ t < w.until_ := by
  simp [TimeWindow.containsT]

theorem getLastD_ge : ∀ (nows : List Int) (c : Int),
    List.Chain (· < ·) c nows → c ≤ nows.getLastD c := by
  intro nows
  induction nows with
  | nil => intro c _; exact le_refl c
  | cons n rest ih =>
      intro c h
      rw [List.chain_cons] at h
      have h2 := ih n h.2
      rw [List.getLastD_cons]
      exact le_of_lt (lt_of_lt_of_le h.1 h2)

theorem windowsFrom_pos : ∀ (nows : List Int) (c : Int),
    List.Chain (· < ·) c nows →
      ∀ w ∈ windowsFrom c nows, w.since < w.until_ := by
  intro nows
  induction nows with
  | nil => intro c _ w hw; simp [windowsFrom] at hw
  | cons n rest ih =>
      intro c h w hw
      rw [List.chain_cons] at h
      rw [windowsFrom, List.mem_cons] at hw
      cases hw with
      | inl hw => subst hw; exact h.1
      | inr hw => exact ih n h.2 w hw

theorem windowsFrom_chain : ∀ (nows : List Int) (c : Int),
    List.Chain' (fun a b => a.until_ = b.since) (windowsFrom c nows) := by
  intro nows
  induction nows with
  | nil => intro c; simp [windowsFrom]
  | cons n rest ih =>
      intro c
      cases rest with
      | nil => simp [windowsFrom]
      | cons m rest' =>
          rw [windowsFrom, windowsFrom, List.chain'_cons]
          exact ⟨rfl, by rw [← windowsFrom]; exact ih n⟩

theorem windowsFrom_coverage (t : Int) : ∀ (nows : List Int) (c : Int),
    List.Chain (· < ·) c nows →
      (windowsFrom c nows).countP (fun w => w.containsT t) =
        if c ≤ t ∧ t < nows.getLastD c then 1 else 0 := by
  intro nows
  induction nows with
  | nil =>
      intro c _
      rw [windowsFrom]
      simp only [List.countP_nil, List.getLastD_nil]
      split_ifs with h
      · omega
      · rfl
  | cons n rest ih =>
      intro c h
      rw [List.chain_cons] at h
      obtain ⟨hcn, hch⟩ := h
      have hge := getLastD_ge rest n hch
      rw [windowsFrom, List.countP_cons, ih n hch, List.getLastD_cons]
      simp only [TimeWindow.containsT, Bool.and_eq_true, decide_eq_true_eq]
      split_ifs <;> omega

/-- An all-success run from an existing checkpoint `c` visits exactly the
windows `windowsFrom c nows` and ends with its checkpoint at the last clock
reading. -/
theorem runCycles_all_success (lb : Int) : ∀ (nows : List Int) (c : Int),
    List.Chain (· < ·) c nows →
      runCycles lb (some c) (nows.map (fun n => (n, true))) =
        (some (nows.getLastD c), windowsFrom c nows) := by
  intro nows
  induction nows with
  | nil => intro c _; rfl
  | cons n rest ih =>
      intro c h
      rw [List.chain_cons] at h
      obtain ⟨hcn, hch⟩ := h
      have hnw : nextWindow (some c) lb n = some ⟨c, n⟩ := by
        simp only [nextWindow]
        rw [if_neg (by omega)]
      have hstep : stepCheckpoint (some c) lb n true = (some n, some ⟨c, n⟩) := by
        unfold stepCheckpoint
        rw [hnw]
        rfl
      rw [List.map_cons]
      show (let step := stepCheckpoint (some c) lb n true
        let tail := runCycles lb step.1 (rest.map (fun n => (n, true)))
        (tail.1,
          (match step.2, true with
            | some w, true => [w]
            | _, _ => []) ++ tail.2)) =
        (some ((n :: rest).getLastD c), windowsFrom c (n :: rest))
      rw [hstep]
      simp only [ih n hch, List.getLastD_cons, windowsFrom]
      rfl

/-- A full all-success run starting with no checkpoint issues the gap-free
window sequence `windowsFrom (n₀ - lookback) (n₀ :: rest)`. -/
theorem runCycles_from_none (lb n₀ : Int) (rest : List Int)
    (h : List.Chain (· < ·) n₀ rest) :
    runCycles lb none ((n₀ :: rest).map (fun n => (n, true))) =
      (some (rest.getLastD n₀), windowsFrom (n₀ - lb) (n₀ :: rest)) := by
  have hstep : stepCheckpoint none lb n₀ true = (some n₀, some ⟨n₀ - lb, n₀⟩) := by
    rfl
  rw [List.map_cons]
  show (let step := stepCheckpoint none lb n₀ true
    let tail := runCycles lb step.1 (rest.map (fun n => (n, true)))
    (tail.1,
      (match step.2, true with
        | some w, true => [w]
        | _, _ => []) ++ tail.2)) =
    (some (rest.getLastD n₀), windowsFrom (n₀ - lb) (n₀ :: rest))
  rw [hstep]
  simp only [runCycles_all_success lb rest n₀ h, windowsFrom]
  rfl

/-! ## Supporting facts for the claim theorems -/

theorem int64wrap_lower (x : Int) : -(2 ^ 63) ≤ int64wrap x := by
  unfold int64wrap
  omega

theorem int64wrap_upper (x : Int) : int64wrap x < 2 ^ 63 := by
  unfold int64wrap
  omega

/-! ## Claim theorems -/

/-- C1: `Query` returns a successful (non-error) result exactly when its
single HTTP attempt produced a readable status-200 response whose body
decodes into a `GraphQLResponse` with an empty payload error list; every
other outcome (transport failure, body read failure, any non-200 status —
2xx included — decode failure, or a non-empty error list) yields an error
carrying no data. -/
theorem query_success_iff_clean_200 (transport : Nat → HTTPResult)
    (decodeResp : Bytes → Option GraphQLResponse) (r : GraphQLResponse) :
    Query transport decodeResp = .ok r ↔
      ∃ b : Bytes, transport 0 = .response 200 (some b) ∧
        decodeResp b = some r ∧ r.errors = [] := by
  unfold Query
  cases htr : transport 0 with
  | transportFailure m => simp [classifyResponse]
  | response status readBody =>
      cases readBody with
      | none => simp [classifyResponse]
      | some b =>
          simp only [classifyResponse]
          by_cases hs : status = 200
          · subst hs
            rw [if_neg (by simp)]
            cases hd : decodeResp b with
            | none => simp [hd]
            | some r' =>
                dsimp only
                by_cases he : r'.errors = []
                · rw [if_pos (List.isEmpty_iff.mpr he)]
                  constructor
                  · intro h
                    injection h with h'
                    subst h'
                    exact ⟨b, rfl, hd, he⟩
                  · rintro ⟨b', hb, hdec, -⟩
                    cases hb
                    rw [hd] at hdec
                    cases hdec
                    rfl
                · rw [if_neg (by simp [he])]
                  constructor
                  · intro h; cases h
                  · rintro ⟨b', hb, hdec, hr⟩
                    cases hb
                    rw [hd] at hdec
                    cases hdec
                    exact absurd hr he
          · constructor
            · intro h
              rw [if_pos hs] at h
              cases h
            · rintro ⟨b', hb, -, -⟩
              cases hb
              exact absurd rfl hs

/-- C2 counterexample: the first attempt answers HTTP 500 while every later
attempt would answer a clean 200 success; the claim's retry policy would
therefore succeed, but `Query` surfaces the error immediately — no retry is
ever attempted. -/
theorem query_retry_counterexample :
    Query
      (fun n => if n = 0 then .response 500 (some ("bad"))
        else .response 200 (some ("good")))
      (fun b => if b = "good" then some ⟨"data", []⟩ else none) =
      .error ("unexpected status code 500") ∧
    classifyResponse
      ((fun n => if n = 0 then HTTPResult.response 500 (some ("bad"))
        else HTTPResult.response 200 (some ("good"))) 1)
      (fun b => if b = "good" then some ⟨"data", []⟩ else none) =
      .ok ⟨"data", []⟩ := by
  exact ⟨rfl, rfl⟩

/-- C2 (amended): the executor performs exactly one HTTP attempt per call
and never retries: its outcome depends only on the first attempt, and any
non-200 status — 429 and 5xx included, like 401/403 and payload errors —
surfaces an error immediately. -/
theorem query_no_retry :
    (∀ (t₁ t₂ : Nat → HTTPResult) (d : Bytes → Option GraphQLResponse),
        t₁ 0 = t₂ 0 → Query t₁ d = Query t₂ d) ∧
    (∀ (t : Nat → HTTPResult) (d : Bytes → Option GraphQLResponse)
        (s : Nat) (rb : Option Bytes), t 0 = .response s rb → s ≠ 200 →
        ∃ msg, Query t d = .error msg) := by
  constructor
  · intro t₁ t₂ d h
    unfold Query
    rw [h]
  · intro t d s rb h hs
    unfold Query
    rw [h]
    cases rb with
    | none => exact ⟨_, rfl⟩
    | some b =>
        simp only [classifyResponse]
        rw [if_pos hs]
        exact ⟨_, rfl⟩

/-- C2 witness: instantiating the no-retry theorem on concrete transports
agreeing at attempt 0, and on a concrete 500 response. -/
theorem query_no_retry_witness :
    (Query (fun _ => HTTPResult.response 500 (some ("bad")))
        (fun _ => none) =
      Query (fun n => if n = 0 then HTTPResult.response 500 (some ("bad"))
        else HTTPResult.transportFailure "later") (fun _ => none)) ∧
    ∃ msg, Query (fun _ => HTTPResult.response 500 (some ("bad")))
      (fun _ => none) = .error msg :=
  ⟨query_no_retry.1 _ _ _ rfl,
   query_no_retry.2 (fun _ => HTTPResult.response 500 (some ("bad")))
     (fun _ => none) 500 (some ("bad")) rfl (by decide)⟩

/-- C3 counterexample: two rows with `int64` counts `2^63 - 1` and `1`
collapse onto the key "block"; the accumulated count wraps, so the
aggregated total differs from the raw total. -/
theorem conservation_counterexample :
    sumValues (aggregateBy (fun e => e.dimensions.action)
        [⟨2 ^ 63 - 1, ⟨"block", "waf", "US"⟩⟩,
         ⟨1, ⟨"block", "waf", "DE"⟩⟩]) ≠
      (([(⟨2 ^ 63 - 1, ⟨"block", "waf", "US"⟩⟩ : FirewallEventGroup),
         ⟨1, ⟨"block", "waf", "DE"⟩⟩].map (fun e => e.count)).sum) := by
  decide

/-- C3 (amended): for every raw group list and every dimension projection,
the sum of the aggregated counts equals the sum of the raw counts modulo
2^64 (and hence exactly whenever no 64-bit overflow occurs). -/
theorem aggregate_conservation_mod (proj : FirewallEventGroup → String)
    (l : List FirewallEventGroup) :
    sumValues (aggregateBy proj l) % 2 ^ 64 =
      ((l.map (fun e => e.count)).sum) % 2 ^ 64 := by
  have h := sumValues_foldl_bump proj l []
  simpa [sumValues] using h

/-- C5 counterexample: adding counts `2^63 - 1` and `1` under one key wraps
to `-2^63`; the aggregation returns this wrapped value as an ordinary
result — no overflow error of any kind is raised. -/
theorem overflow_counterexample :
    lookupD (aggregateBy (fun e => e.dimensions.action)
        [⟨2 ^ 63 - 1, ⟨"block", "waf", "US"⟩⟩,
         ⟨1, ⟨"block", "waf", "DE"⟩⟩]) "block" = -(2 ^ 63) ∧
    (-(2 ^ 63) : Int) < 0 := by
  exact ⟨by decide, by decide⟩

/-- C5 (amended): accumulation is a total function that silently wraps:
every accumulated value is exactly the `int64`-wrapped (mod 2^64, signed)
sum of its key's raw counts and always lies in `[-2^63, 2^63)`; overflow is
never detected and never reported. -/
theorem aggregate_overflow_wraps (proj : FirewallEventGroup → String)
    (l : List FirewallEventGroup) (k : String) :
    lookupD (aggregateBy proj l) k =
      int64wrap (((l.filter (fun e => proj e = k)).map
        (fun e => e.count)).sum) ∧
    -(2 ^ 63) ≤ lookupD (aggregateBy proj l) k ∧
    lookupD (aggregateBy proj l) k < 2 ^ 63 := by
  refine ⟨lookupD_aggregateBy proj l k, ?_, ?_⟩ <;>
    rw [lookupD_aggregateBy proj l k]
  · exact int64wrap_lower _
  · exact int64wrap_upper _

/-- C4 counterexample: the query filter (`datetime_geq`/`datetime_leq`)
admits the instant `until` itself — an event at exactly `until = 10` is
counted in the window `(0, 10)` and again in the contiguous next window
`(10, 20)`. -/
theorem window_boundary_counterexample :
    firewallEventsFilter 0 10 10 = true ∧
    firewallEventsFilter 10 20 10 = true := by
  exact ⟨rfl, rfl⟩

/-- C4 (amended): the remote query covers the closed interval
`[since, until]` — both bounds inclusive — so an event at exactly `until`
is counted in that window, and in two contiguous windows sharing that
boundary it is counted twice. -/
theorem firewallEventsFilter_closed (since until_ next t : Int) :
    (firewallEventsFilter since until_ t = true ↔
      since ≤ t ∧ t ≤ until_) ∧
    (since ≤ until_ → until_ ≤ next →
      firewallEventsFilter since until_ until_ = true ∧
      firewallEventsFilter until_ next until_ = true) := by
  unfold firewallEventsFilter
  constructor
  · simp
  · intro h1 h2
    simp [h1, h2]

/-- C4 witness: the closed-bounds theorem applied at `since = 0`,
`until = 10`, `next = 20`, `t = 5`. -/
theorem firewallEventsFilter_closed_witness :
    ((0 : Int) ≤ 10 ∧ (10 : Int) ≤ 20) ∧
    (firewallEventsFilter 0 10 10 = true ∧
      firewallEventsFilter 10 20 10 = true) :=
  ⟨⟨by decide, by decide⟩,
   (firewallEventsFilter_closed 0 10 20 5).2 (by decide) (by decide)⟩

/-- C7 counterexample: on a response holding exactly the cap of 100 rows the
executor returns the bare decoded response — identical to the plain decode
of the payload, with no possibly-truncated marker anywhere in the returned
value and no further request issued. -/
theorem truncation_flag_counterexample :
    GetFirewallEvents exTransport exDecodeResp exDecodeFE = .ok exResp100 ∧
    exDecodeFE "data" = some exResp100 ∧
    (exResp100.viewer.zones.headD ⟨[]⟩).firewallEventsAdaptiveGroups.length =
      firewallEventsQueryLimit := by
  refine ⟨rfl, rfl, ?_⟩
  simp [exResp100, firewallEventsQueryLimit]

/-- C7 (amended): the executor never paginates and never flags truncation:
its outcome depends only on the single first HTTP attempt, and on success it
returns the decoded response unchanged — also when the row count equals the
hard-coded cap of 100, which a caller can detect only from the row count
itself. -/
theorem getFirewallEvents_no_pagination :
    (∀ (t₁ t₂ : Nat → HTTPResult) (dR : Bytes → Option GraphQLResponse)
        (dF : Bytes → Option FirewallEventsResponse), t₁ 0 = t₂ 0 →
        GetFirewallEvents t₁ dR dF = GetFirewallEvents t₂ dR dF) ∧
    (∀ (t : Nat → HTTPResult) (dR : Bytes → Option GraphQLResponse)
        (dF : Bytes → Option FirewallEventsResponse) (r : GraphQLResponse)
        (fe : FirewallEventsResponse),
        Query t dR = .ok r → dF r.data = some fe →
        GetFirewallEvents t dR dF = .ok fe) := by
  constructor
  · intro t₁ t₂ dR dF h
    unfold GetFirewallEvents Query
    rw [h]
  · intro t dR dF r fe hq hd
    unfold GetFirewallEvents
    rw [hq]
    dsimp only
    rw [hd]

/-- C7 witness: the no-pagination theorem applied to the concrete cap-sized
scenario: the decoded 100-row response is returned unchanged. -/
theorem getFirewallEvents_no_pagination_witness :
    Query exTransport exDecodeResp = .ok ⟨"data", []⟩ ∧
    exDecodeFE "data" = some exResp100 ∧
    GetFirewallEvents exTransport exDecodeResp exDecodeFE = .ok exResp100 :=
  ⟨rfl, rfl,
   getFirewallEvents_no_pagination.2 exTransport exDecodeResp exDecodeFE
     ⟨"data", []⟩ exResp100 rfl rfl⟩

/-- C8: aggregation is independent of the input row order: permuting the raw
rows leaves the resulting mapping unchanged — same accumulated value at
every key and the same set of keys. -/
theorem aggregate_perm_invariant (proj : FirewallEventGroup → String)
    (l₁ l₂ : List FirewallEventGroup) (h : l₁.Perm l₂) :
    (∀ k, lookupD (aggregateBy proj l₁) k =
      lookupD (aggregateBy proj l₂) k) ∧
    (∀ k, k ∈ (aggregateBy proj l₁).map Prod.fst ↔
      k ∈ (aggregateBy proj l₂).map Prod.fst) := by
  constructor
  · intro k
    rw [lookupD_aggregateBy, lookupD_aggregateBy]
    congr 1
    exact ((h.filter _).map _).sum_eq
  · intro k
    have h1 := mem_keys_foldl_bump proj l₁ [] k
    have h2 := mem_keys_foldl_bump proj l₂ [] k
    unfold aggregateBy
    rw [h1, h2]
    simp [List.Perm.mem_iff (h.map proj)]

/-- C8 witness: the permutation-invariance theorem applied to a concrete
two-row list and its reversal, compared at the key "block". -/
theorem aggregate_perm_invariant_witness :
    ([(⟨5, ⟨"block", "waf", "US"⟩⟩ : FirewallEventGroup),
      ⟨3, ⟨"block", "waf", "DE"⟩⟩].Perm
      [⟨3, ⟨"block", "waf", "DE"⟩⟩, ⟨5, ⟨"block", "waf", "US"⟩⟩]) ∧
    lookupD (aggregateBy (fun e => e.dimensions.action)
      [⟨5, ⟨"block", "waf", "US"⟩⟩, ⟨3, ⟨"block", "waf", "DE"⟩⟩]) "block" =
    lookupD (aggregateBy (fun e => e.dimensions.action)
      [⟨3, ⟨"block", "waf", "DE"⟩⟩, ⟨5, ⟨"block", "waf", "US"⟩⟩]) "block" :=
  ⟨by decide,
   (aggregate_perm_invariant (fun e => e.dimensions.action) _ _ (by decide)).1
     "block"⟩

/-- C9 counterexample: two presentations of the same grouped counts — the
pairs ("A",5) and ("B",5) in the two possible encounter orders — sort to
differently ordered outputs (map iteration order is arbitrary in Go, so two
runs can present them in either order), and the second output is not
lexicographically tie-broken. -/
theorem sort_tiebreak_counterexample :
    sortCountries [("A", 5), ("B", 5)] = [("A", 5), ("B", 5)] ∧
    sortCountries [("B", 5), ("A", 5)] = [("B", 5), ("A", 5)] := by
  exact ⟨rfl, rfl⟩

/-- C9 (amended): the top-country sort orders by count descending only: its
output is a permutation of the grouped counts with non-increasing count
values, and there is no tie-break of any kind — the relative order of
entries with equal counts is left unspecified (it depends on the input
presentation order), so the output order on ties is not deterministic
across runs. -/
theorem sortCountries_sorted_perm (l : List (String × Int)) :
    (sortCountries l).Perm l ∧
    (sortCountries l).Pairwise (fun x y => y.2 ≤ x.2) := by
  obtain ⟨hlen, hperm, hdom⟩ := outer_fold_invariant l l.length (le_refl _)
  rw [sortCountries_eq_foldl]
  refine ⟨hperm, ?_⟩
  rw [List.pairwise_iff_getElem]
  intro a b ha hb hab
  have ha' : a < l.length := by rw [hlen] at ha; exact ha
  have hb' : b < l.length := by rw [hlen] at hb; exact hb
  have h := hdom a b ha' (le_of_lt hab) hb'
  rw [List.getD_eq_getElem _ _ ha, List.getD_eq_getElem _ _ hb] at h
  exact h

/-- C10: every summary is computed from the first zone entry only — extra
zone entries never influence the report — and an empty zones list produces
the normal "No zones found" outcome, not an error. -/
theorem main_first_zone_only :
    (runMain (.ok ⟨⟨[]⟩⟩) = .noZones) ∧
    (∀ (z : ZoneGroups) (rest : List ZoneGroups),
      runMain (.ok ⟨⟨z :: rest⟩⟩) =
        .report (summarize z.firewallEventsAdaptiveGroups)
          (topCountries z.firewallEventsAdaptiveGroups)) ∧
    (∀ (z : ZoneGroups) (rest rest' : List ZoneGroups),
      runMain (.ok ⟨⟨z :: rest⟩⟩) = runMain (.ok ⟨⟨z :: rest'⟩⟩)) :=
  ⟨rfl, fun _ _ => rfl, fun _ _ _ => rfl⟩

/-- C6 (spec-modelled): the checkpoint is advanced to the window's `until`
only after a successful cycle and is untouched by a failed one, so the failed
window is re-issued from the same `since`; and an all-success run over
strictly increasing clock readings issues windows that are pairwise
contiguous, each non-empty, and cover `[firstSince, lastUntil)` with every
instant in exactly one window — no gap and no overlap. -/
theorem checkpoint_gapfree :
    (∀ (cp : Option Int) (lb now : Int),
      (stepCheckpoint cp lb now false).1 = cp) ∧
    (∀ (cp : Option Int) (lb now : Int) (w : TimeWindow),
      nextWindow cp lb now = some w →
      (stepCheckpoint cp lb now true).1 = some w.until_) ∧
    (∀ (cp : Option Int) (lb now now' : Int),
      nextWindow ((stepCheckpoint cp lb now false).1) lb now' =
        nextWindow cp lb now') ∧
    (∀ (lb n₀ : Int) (rest : List Int), 0 < lb →
      List.Chain (· < ·) n₀ rest →
      (runCycles lb none ((n₀ :: rest).map (fun n => (n, true)))).2 =
        windowsFrom (n₀ - lb) (n₀ :: rest) ∧
      (∀ w ∈ (runCycles lb none ((n₀ :: rest).map (fun n => (n, true)))).2,
        w.since < w.until_) ∧
      List.Chain' (fun a b => a.until_ = b.since)
        ((runCycles lb none ((n₀ :: rest).map (fun n => (n, true)))).2) ∧
      (∀ t : Int,
        ((runCycles lb none ((n₀ :: rest).map (fun n => (n, true)))).2.countP
          (fun w => w.containsT t)) =
          if n₀ - lb ≤ t ∧ t < rest.getLastD n₀ then 1 else 0)) := by
  refine ⟨?_, ?_, ?_, ?_⟩
  · intro cp lb now
    unfold stepCheckpoint
    cases hnw : nextWindow cp lb now <;> rfl
  · intro cp lb now w hnw
    unfold stepCheckpoint
    rw [hnw]
    rfl
  · intro cp lb now now'
    unfold stepCheckpoint
    cases hnw : nextWindow cp lb now <;> rfl
  · intro lb n₀ rest hlb hch
    have hrun := runCycles_from_none lb n₀ rest hch
    have hchain : List.Chain (· < ·) (n₀ - lb) (n₀ :: rest) := by
      rw [List.chain_cons]
      exact ⟨by omega, hch⟩
    refine ⟨by rw [hrun], ?_, ?_, ?_⟩
    · rw [hrun]
      exact windowsFrom_pos (n₀ :: rest) (n₀ - lb) hchain
    · rw [hrun]
      exact windowsFrom_chain (n₀ :: rest) (n₀ - lb)
    · intro t
      rw [hrun]
      have h := windowsFrom_coverage t (n₀ :: rest) (n₀ - lb) hchain
      rw [h, List.getLastD_cons]

/-- C6 witness: a concrete three-cycle all-success run with lookback 5 and
clock readings 10, 20, 30: the instant 7 lies in exactly one issued
window. -/
theorem checkpoint_gapfree_witness :
    (0 : Int) < 5 ∧ List.Chain (· < ·) (10 : Int) [20, 30] ∧
    ((runCycles 5 none ([(10 : Int), 20, 30].map (fun n => (n, true)))).2.countP
      (fun w => w.containsT 7) = 1) := by
  refine ⟨by decide, ?_, ?_⟩
  · rw [List.chain_cons, List.chain_cons]
    exact ⟨by decide, by decide, List.Chain.nil⟩
  · have h := (checkpoint_gapfree.2.2.2 5 10 [20, 30] (by decide)
      (by rw [List.chain_cons, List.chain_cons]
          exact ⟨by decide, by decide, List.Chain.nil⟩)).2.2.2 7
    rw [h]
    decide

end CloudflarePoc
